import Mathlib

set_option maxHeartbeats 1000000

/-! Verification of the symbolic inversion / under-decomposition core
(src/src/algorithm/invert.rs). The rewrite engine itself is translated
from the source file; its external collaborators (the instruction and
primitive alphabet, value introspection, and arity/signature inference),
which live outside the source tree, are modelled from the spec (spec.md
sections 3 and 6) and are marked as such below. -/

/-- Modelled from the spec: the primitive alphabet (spec section 3); the
primitive enumeration is external data consumed read-only. Only primitives
the rewrite rules of the source file mention are included, plus Noop, a
zero-arity zero-output primitive of the kind the Val rule treats as atomic. -/
inductive Primitive where
  | Sqrt | Pow | Log | Invert | Call | Rotate | Neg | Flip
  | Add | Sub | Mul | Div | Repeat
  | Take | Untake | Drop | Undrop | Select | Unselect | Pick | Unpick
  | Over | First | Dup | Last | Join | Noop
  deriving DecidableEq, Repr

/-- Modelled from the spec: the algebraic-inverse table (spec sections 3 and 6)
lives in the external primitive module. Multiply/divide and flip/flip are the
pairs the spec names that are also forced by its section 8 tests
(invert([Mul]) = [Div], invert([Div]) = [Mul]); Add, Pow and Log must have no
entry, since otherwise the section 8 composed identities for [push 3, Add] and
[push 2, Pow] could not hold (the driver tries the single-instruction window
first, and a bare [push v] fragment never matches any rule). -/
def Primitive.inverse : Primitive → Option Primitive
  | .Mul => some .Div
  | .Div => some .Mul
  | .Flip => some .Flip
  | .Neg => some .Neg
  | _ => none

/-- Modelled from the spec: declared input arity of each primitive
(spec sections 3 and 6); none for variadic/structural primitives. -/
def Primitive.args : Primitive → Option Nat
  | .Repeat | .Call => none
  | .Noop => some 0
  | .Neg | .Sqrt | .Invert | .First | .Last | .Dup => some 1
  | .Untake | .Undrop | .Unselect | .Unpick => some 3
  | _ => some 2

/-- Modelled from the spec: declared output arity of each primitive
(spec sections 3 and 6); none for variadic/structural primitives. -/
def Primitive.outputs : Primitive → Option Nat
  | .Repeat | .Call => none
  | .Noop => some 0
  | .Flip | .Dup => some 2
  | .Over => some 3
  | _ => some 1

/-- Modelled from the spec: constant values (spec section 3). A value is
either a number or encodes a primitive ("function value"), queried through
the as_primitive accessor, never via a variant match. -/
inductive Value where
  | num (n : Int)
  | func (p : Primitive) (sp : Nat)
  deriving DecidableEq, Repr

/-- Modelled from the spec: value introspection (spec section 6): does this
constant encode a primitive, and if so which, and with what span. -/
def Value.as_primitive : Value → Option (Primitive × Nat)
  | .func p sp => some (p, sp)
  | .num _ => none

/-- Modelled from the spec: the instruction alphabet (spec section 3): Prim,
Push, the BeginArray/EndArray bracket markers, and an opaque variant standing
for the instruction forms this core does not recognize (they fail to match
every pattern). -/
inductive Instr where
  | Push (v : Value)
  | Prim (p : Primitive) (sp : Nat)
  | BeginArray
  | EndArray (sp : Nat)
  | Other (tag : Nat)
  deriving DecidableEq, Repr

/-- Instr::push: push a numeric constant. -/
def Instr.push (n : Int) : Instr := .Push (.num n)

/-- A signature: (args consumed, outputs produced) for an instruction slice. -/
structure Sig where
  args : Nat
  outputs : Nat
  deriving DecidableEq, Repr

/-- Stack-effect walk used by the modelled signature inference: current net
height and minimum reached height, as integers; fails on primitives with
undeclared arity and on array brackets. -/
def sigGo : List Instr → Int → Int → Option (Int × Int)
  | [], curr, low => some (curr, low)
  | Instr.Push _ :: rest, curr, low => sigGo rest (curr + 1) low
  | Instr.Prim p _ :: rest, curr, low =>
    match p.args, p.outputs with
    | some a, some o => sigGo rest (curr - a + o) (min low (curr - a))
    | _, _ => none
  | Instr.BeginArray :: _, _, _ => none
  | Instr.EndArray _ :: _, _, _ => none
  | Instr.Other _ :: _, _, _ => none

/-- Modelled from the spec: external arity/signature inference over an
instruction slice (spec section 6): returns (args, outputs) or fails when the
slice's arity is not statically determinable in this model (array brackets,
variadic primitives, opaque instructions). -/
def instrs_signature (l : List Instr) : Option Sig :=
  (sigGo l 0 0).map fun r => ⟨(-r.2).toNat, (r.1 + -r.2).toNat⟩

/-- Val's forward scan for the EndArray matching an already-open BeginArray:
given the instructions after the opening bracket and the current nesting
depth, returns the index of the matching close, or none if the slice ends
before the depth returns to zero. -/
def scanClose : List Instr → Nat → Option Nat
  | [], _ => none
  | Instr.EndArray _ :: _, 0 => none
  | Instr.EndArray _ :: _, 1 => some 0
  | Instr.EndArray _ :: rest, d + 2 => (scanClose rest (d + 1)).map (· + 1)
  | Instr.BeginArray :: rest, d => (scanClose rest (d + 1)).map (· + 1)
  | _ :: rest, d => (scanClose rest d).map (· + 1)

/-- The longest-proper-prefix search of Val::invert_extract: try prefix
lengths n, n-1, ..., 1 (the source iterates (1..input.len()).rev()) and take
the first whose signature computes to zero args and one output. -/
def valChunkSearch (input : List Instr) : Nat → Option (List Instr × List Instr)
  | 0 => none
  | len + 1 =>
    match instrs_signature (input.take (len + 1)) with
    | some s =>
      if s.args = 0 ∧ s.outputs = 1 then some (input.take (len + 1), input.drop (len + 1))
      else valChunkSearch input len
    | none => valChunkSearch input len

/-- The single-instruction / array-literal fallback of Val::invert_extract,
applied when no qualifying proper prefix exists: a pushed literal, a
zero-arity zero-output primitive, or a whole bracketed array region. -/
def valFallback : Instr → List Instr → Option (List Instr × List Instr)
  | Instr.Push v, rest => some ([Instr.Push v], rest)
  | Instr.Prim p sp, rest =>
    if p.args = some 0 ∧ p.outputs = some 0 then some ([Instr.Prim p sp], rest) else none
  | Instr.BeginArray, rest =>
    match scanClose rest 1 with
    | some j => some (Instr.BeginArray :: rest.take (j + 1), rest.drop (j + 1))
    | none => none
  | Instr.EndArray _, _ => none
  | Instr.Other _, _ => none

/-- Val::invert_extract. The cursor-mutating source is rendered as
input to (extracted instructions, remaining input). On empty input the source
returns Some(empty) without consuming anything. -/
def Val.invert_extract (input : List Instr) : Option (List Instr × List Instr) :=
  match input with
  | [] => some ([], [])
  | x :: xs =>
    match valChunkSearch (x :: xs) xs.length with
    | some r => some r
    | none => valFallback x xs

/-- Emission templates: each emitted element is a literal constant or a
primitive (the AsInstr trait objects of the source). -/
inductive Emit where
  | prim (p : Primitive)
  | num (n : Int)
  deriving DecidableEq, Repr

/-- AsInstr::as_instr: tag an emitted element with a span. -/
def Emit.asInstr : Emit → Nat → Instr
  | .prim p, sp => Instr.Prim p sp
  | .num n, _ => Instr.push n

/-- The fixed-arity template matcher's matching half: the next instructions
must be exactly the given primitives; collects their spans. -/
def templateMatch : List Primitive → List Instr → Option (List Nat × List Instr)
  | [], input => some ([], input)
  | p :: ps, Instr.Prim q sp :: rest =>
    if q = p then (templateMatch ps rest).map fun r => (sp :: r.1, r.2) else none
  | _ :: _, _ => none

/-- The emission half: each emitted element is tagged with the matched span at
the same cyclic index (the source zips with spans.iter().cycle()). -/
def emitAll (b : List Emit) (spans : List Nat) : List Instr :=
  match spans with
  | [] => []
  | _ :: _ => b.enum.map fun ix => ix.2.asInstr (spans.getD (ix.1 % spans.length) 0)

/-- An InvertPattern: consumes a prefix of the input and returns the inverse
instructions together with the remaining input. -/
abbrev InvPat := List Instr → Option (List Instr × List Instr)

/-- An UnderPattern: same cursor contract but returns a (before, after) pair. -/
abbrev UndPat := List Instr → Option ((List Instr × List Instr) × List Instr)

/-- Sequence combinator for invert patterns: run A then B, concatenate the
inverses in run order. -/
def invSeq (A B : InvPat) : InvPat := fun input =>
  match A input with
  | none => none
  | some (ra, r1) =>
    match B r1 with
    | none => none
    | some (rb, r2) => some (ra ++ rb, r2)

/-- A template pattern ([Primitive; A], [Emit; B]) as an invert pattern. -/
def primTemplate (a : List Primitive) (b : List Emit) : InvPat := fun input =>
  (templateMatch a input).map fun r => (emitAll b r.1, r.2)

/-- Consume any number of leading Flip primitives. -/
def dropFlips : List Instr → List Instr
  | Instr.Prim Primitive.Flip _ :: rest => dropFlips rest
  | l => l

/-- IgnoreMany(Flip): greedily consume Flips, emit nothing, always succeed. -/
def ignoreManyFlip : InvPat := fun input => some ([], dropFlips input)

/-- invert_pow_pattern: Val then Pow. Note the source emits val[0].clone() -
only the first instruction of the extracted value expression - between the
pushed 1 and the Div. -/
def invert_pow_pattern : InvPat := fun input =>
  match Val.invert_extract input with
  | none => none
  | some (v, r1) =>
    match v, r1 with
    | v0 :: _, Instr.Prim Primitive.Pow sp :: r2 =>
      some ([Instr.push 1, v0, Instr.Prim .Div sp, Instr.Prim .Pow sp], r2)
    | _, _ => none

/-- invert_log_pattern: Val then Log; emits val[0], Flip, Pow. -/
def invert_log_pattern : InvPat := fun input =>
  match Val.invert_extract input with
  | none => none
  | some (v, r1) =>
    match v, r1 with
    | v0 :: _, Instr.Prim Primitive.Log sp :: r2 =>
      some ([v0, Instr.Prim .Flip sp, Instr.Prim .Pow sp], r2)
    | _, _ => none

/-- invert_repeat_pattern: Val then Push(f), Repeat; emits the whole value
expression followed by Neg, Push(f), Repeat. -/
def invert_repeat_pattern : InvPat := fun input =>
  match Val.invert_extract input with
  | none => none
  | some (v, r1) =>
    match r1 with
    | Instr.Push f :: Instr.Prim Primitive.Repeat sp :: r2 =>
      some (v ++ [Instr.Prim .Neg sp, Instr.Push f, Instr.Prim .Repeat sp], r2)
    | _ => none

/-- The ordered invert-pattern list of invert_instr_fragment. -/
def invertPatterns : List InvPat :=
  [ invSeq Val.invert_extract (primTemplate [.Invert] [.prim .Call]),
    invSeq Val.invert_extract (primTemplate [.Rotate] [.prim .Neg, .prim .Rotate]),
    invSeq Val.invert_extract (invSeq ignoreManyFlip (primTemplate [.Add] [.prim .Sub])),
    invSeq Val.invert_extract (primTemplate [.Sub] [.prim .Add]),
    invSeq Val.invert_extract (invSeq ignoreManyFlip (primTemplate [.Mul] [.prim .Div])),
    invSeq Val.invert_extract (primTemplate [.Div] [.prim .Mul]),
    invert_pow_pattern,
    invert_log_pattern,
    invert_repeat_pattern ]

/-- The pattern loop: a pattern's result is used only if it consumed the whole
fragment (the source checks input.is_empty() and otherwise tries the next
pattern). -/
def firstFullMatch : List InvPat → List Instr → Option (List Instr)
  | [], _ => none
  | p :: ps, input =>
    match p input with
    | some (r, []) => some r
    | _ => firstFullMatch ps input

/-- invert_instr_fragment: single-primitive and pushed-function-value special
cases (where a missing primitive inverse aborts the fragment), then the
ordered pattern list. -/
def invert_instr_fragment (instrs : List Instr) : Option (List Instr) :=
  match instrs with
  | [Instr.Prim p sp] =>
    if p = Primitive.Sqrt then some [Instr.push 2, Instr.Prim .Pow sp]
    else (p.inverse).map fun q => [Instr.Prim q sp]
  | [Instr.Push v] =>
    match v.as_primitive with
    | some (p, sp) => (p.inverse).map fun q => [Instr.Prim q sp]
    | none => firstFullMatch invertPatterns [Instr.Push v]
  | _ => firstFullMatch invertPatterns instrs

/-- The window instrs[start..end] of the drivers. -/
def windowSlice (l : List Instr) (s e : Nat) : List Instr := (l.drop s).take (e - s)

/-- The loop of invert_instrs: state (start, end, accumulated inverse).
On fragment success the inverse is prepended to the accumulator and, unless
start = 0, the window moves to (start - 1, start); on failure the window grows
leftward (start - 1, end), and failure at start = 0 fails the whole request.
Structural recursion on start (the source decrements start in both branches). -/
def invertLoop (instrs : List Instr) : Nat → Nat → List Instr → Option (List Instr)
  | 0, e, acc =>
    match invert_instr_fragment (windowSlice instrs 0 e) with
    | some f => some (f ++ acc)
    | none => none
  | start + 1, e, acc =>
    match invert_instr_fragment (windowSlice instrs (start + 1) e) with
    | some f => invertLoop instrs start (start + 1) (f ++ acc)
    | none => invertLoop instrs start e acc

/-- invert_instrs (the pure rewriting; the memo table is modelled separately
as explicit state, see invert_instrs_cached): empty inverts to empty,
otherwise the loop starts with the window (len - 1, len). -/
def invert_instrs (instrs : List Instr) : Option (List Instr) :=
  match instrs with
  | [] => some []
  | _ => invertLoop instrs (instrs.length - 1) instrs.length []

/-- Sequence combinator for under patterns: befores concatenate in run order,
afters in reverse run order. -/
def undSeq (A B : UndPat) : UndPat := fun input =>
  match A input with
  | none => none
  | some (ua, r1) =>
    match B r1 with
    | none => none
    | some (ub, r2) => some ((ua.1 ++ ub.1, ub.2 ++ ua.2), r2)

/-- A ternary template pattern ([Primitive; A], [Emit; B], [Emit; C]) as an
under pattern: befores from b, afters from c, spans cycled as in the source. -/
def undTemplate (a : List Primitive) (b c : List Emit) : UndPat := fun input =>
  (templateMatch a input).map fun r => ((emitAll b r.1, emitAll c r.1), r.2)

/-- Val as an UnderPattern: before is the extracted value, after is empty. -/
def Val.under_extract : UndPat := fun input =>
  (Val.invert_extract input).map fun r => ((r.1, []), r.2)

/-- The ordered under-pattern list of under_instr_fragment (the view idioms). -/
def underPatterns : List UndPat :=
  [ undSeq Val.under_extract
      (undTemplate [.Take] [.prim .Over, .prim .Over, .prim .Take] [.prim .Untake]),
    undTemplate [.Take] [.prim .Over, .prim .Over, .prim .Take] [.prim .Untake],
    undSeq Val.under_extract
      (undTemplate [.Drop] [.prim .Over, .prim .Over, .prim .Drop] [.prim .Undrop]),
    undTemplate [.Drop] [.prim .Over, .prim .Over, .prim .Drop] [.prim .Undrop],
    undSeq Val.under_extract
      (undTemplate [.Select] [.prim .Over, .prim .Over, .prim .Select] [.prim .Unselect]),
    undTemplate [.Select] [.prim .Over, .prim .Over, .prim .Select] [.prim .Unselect],
    undSeq Val.under_extract
      (undTemplate [.Pick] [.prim .Over, .prim .Over, .prim .Pick] [.prim .Unpick]),
    undTemplate [.Pick] [.prim .Over, .prim .Over, .prim .Pick] [.prim .Unpick],
    undTemplate [.Rotate] [.prim .Flip, .prim .Over, .prim .Rotate]
      [.prim .Flip, .prim .Neg, .prim .Rotate],
    undTemplate [.First] [.prim .Dup, .prim .First]
      [.prim .Flip, .num 1, .prim .Drop, .prim .Flip, .prim .Join],
    undTemplate [.Last] [.prim .Dup, .prim .Last]
      [.prim .Flip, .num (-1), .prim .Drop, .prim .Join] ]

/-- The pattern loop of under_instr_fragment: same full-consumption check. -/
def firstFullMatchU : List UndPat → List Instr → Option (List Instr × List Instr)
  | [], _ => none
  | p :: ps, input =>
    match p input with
    | some (r, []) => some r
    | _ => firstFullMatchU ps input

/-- under_instr_fragment: a fully invertible fragment yields (fragment,
inverse); otherwise the view-idiom pattern list is tried. -/
def under_instr_fragment (instrs : List Instr) : Option (List Instr × List Instr) :=
  match invert_instr_fragment instrs with
  | some inv => some (instrs, inv)
  | none => firstFullMatchU underPatterns instrs

/-- The loop of under_instrs, translated branch for branch: state (start, end,
befores, afters); on fragment success the before is appended to befores and
the after prepended to afters, and unless start = 0 the window becomes
(0, start); on failure with start = 0 the request fails, otherwise start is
incremented. The fuel argument only bounds the recursion: the loop's entry
state always has start = 0, where both branches terminate at once, so any
positive fuel yields the source's behaviour (see the single-probe lemma). -/
def underLoop (instrs : List Instr) :
    Nat → Nat → Nat → List Instr → List Instr → Option (List Instr × List Instr)
  | 0, _, _, _, _ => none
  | fuel + 1, start, e, befores, afters =>
    match under_instr_fragment (windowSlice instrs start e) with
    | some (b, a) =>
      if start = 0 then some (befores ++ b, a ++ afters)
      else underLoop instrs fuel 0 start (befores ++ b) (a ++ afters)
    | none =>
      if start = 0 then none
      else underLoop instrs fuel (start + 1) e befores afters

/-- under_instrs (pure part; memoization modelled separately): empty yields
(empty, empty), otherwise the loop starts at start = 0, end = len. -/
def under_instrs (instrs : List Instr) : Option (List Instr × List Instr) :=
  match instrs with
  | [] => some ([], [])
  | _ => underLoop instrs (instrs.length + 1) 0 instrs.length [] []

/-- The thread-local invert memo table, modelled as explicit state: a map from
exact instruction sequences to Option results. -/
abbrev InvCache := List (List Instr × Option (List Instr))

/-- The thread-local under memo table, modelled as explicit state. -/
abbrev UndCache := List (List Instr × Option (List Instr × List Instr))

/-- HashMap::get on the modelled table (structural key equality). -/
def cacheLookup {α : Type} : List (List Instr × α) → List Instr → Option α
  | [], _ => none
  | (k, v) :: rest, key => if k = key then some v else cacheLookup rest key

/-- invert_instrs with its memo table explicit: empty check, cache probe, the
loop, and - only on success - an insert. The source's failure path (line 60)
returns None without touching the cache. -/
def invert_instrs_cached (cache : InvCache) (instrs : List Instr) :
    Option (List Instr) × InvCache :=
  match instrs with
  | [] => (some [], cache)
  | _ =>
    match cacheLookup cache instrs with
    | some r => (r, cache)
    | none =>
      match invertLoop instrs (instrs.length - 1) instrs.length [] with
      | some inv => (some inv, (instrs, some inv) :: cache)
      | none => (none, cache)

/-- under_instrs with its memo table explicit; as with invert, only successes
are inserted. -/
def under_instrs_cached (cache : UndCache) (instrs : List Instr) :
    Option (List Instr × List Instr) × UndCache :=
  match instrs with
  | [] => (some ([], []), cache)
  | _ =>
    match cacheLookup cache instrs with
    | some r => (r, cache)
    | none =>
      match underLoop instrs (instrs.length + 1) 0 instrs.length [] [] with
      | some u => (some u, (instrs, some u) :: cache)
      | none => (none, cache)

/-- Modelled from the spec: the function kind tag (spec section 3): only the
Normal kind participates in inversion; other kinds (built-in/primitive-backed)
are opaque to this core. -/
inductive FunctionKind where
  | Normal
  | Builtin
  deriving DecidableEq, Repr

/-- Modelled from the spec: a function owns an identifier, an instruction
sequence and a kind tag (spec section 3). Named Function in the source;
renamed here because Lean reserves the Function namespace for field notation
on function types. -/
structure Func where
  id : Nat
  instrs : List Instr
  kind : FunctionKind
  deriving DecidableEq, Repr

/-- Function::inverse: non-Normal kinds are rejected, otherwise the body is
inverted and wrapped as a new Normal function. -/
def Func.inverse (f : Func) : Option Func :=
  if f.kind = FunctionKind.Normal then
    (invert_instrs f.instrs).map fun inv => ⟨f.id, inv, FunctionKind.Normal⟩
  else none

/-- Function::under: prefer a full inverse (self, inverse); otherwise fall
back to the under-decomposition of the body, wrapping befores and afters as
Normal functions. -/
def Func.under (f : Func) : Option (Func × Func) :=
  match f.inverse with
  | some g => some (f, g)
  | none =>
    (under_instrs f.instrs).map fun u =>
      (⟨f.id, u.1, FunctionKind.Normal⟩, ⟨f.id, u.2, FunctionKind.Normal⟩)

/-- Transcribed from the spec (section 4.4), for comparison with the source:
find the segment of the greedy right-to-left segmentation whose window ends at
e, scanning candidate starts downward from s0 (smallest window first): returns
the first (start, fragment inverse) whose fragment a rule recognizes. -/
def findSeg (instrs : List Instr) (e : Nat) : Nat → Option (Nat × List Instr)
  | 0 => (invert_instr_fragment (windowSlice instrs 0 e)).map fun f => (0, f)
  | s + 1 =>
    match invert_instr_fragment (windowSlice instrs (s + 1) e) with
    | some f => some (s + 1, f)
    | none => findSeg instrs e s

/-- Transcribed from the spec (section 4.4): greedy right-to-left
segmentation by right boundary e: the empty prefix inverts to empty; otherwise
the shortest span ending at e that some rule recognizes is taken, its inverse
appended after the recursively computed inverse of the remaining prefix, and
if no span matches the whole request fails. The min clamp on the recursive
boundary is forced by termination only; findSeg always returns a start below
the boundary (lemma findSeg_le), so it never alters a value. -/
def invertGreedy (instrs : List Instr) : Nat → Option (List Instr)
  | 0 => some []
  | e + 1 =>
    match findSeg instrs (e + 1) e with
    | none => none
    | some (s, f) => (invertGreedy instrs (min s e)).map (· ++ f)
  termination_by e => e
  decreasing_by exact Nat.lt_succ_of_le (Nat.min_le_right _ _)

/-- Transcribed from the claim's words (C8): does this instruction list, read
left to right starting at the given nesting depth, ever return the depth to
zero (i.e. contain the EndArray matching an already-open BeginArray)? -/
def closesArray : List Instr → Nat → Bool
  | _, 0 => true
  | [], _ + 1 => false
  | Instr.EndArray _ :: rest, d + 1 => closesArray rest d
  | Instr.BeginArray :: rest, d + 1 => closesArray rest (d + 2)
  | _ :: rest, d + 1 => closesArray rest (d + 1)

/-- C1 (refutation evidence): the under driver is not left-anchored and never
grows a window rightward. Each of the two view idioms below is an under
fragment on its own, so a driver with window starting at [0,1) that grows
right on failure and is terminal only on failure with an empty remaining
prefix would cover their concatenation; the source driver instead probes only
the full window [0, len) (start = 0, end = len) and returns None on that
first failure, so the concatenation fails. -/
theorem under_driver_first_probe_decides :
    under_instr_fragment [Instr.push 2, Instr.Prim .Drop 0] =
      some ([Instr.push 2, Instr.Prim .Over 0, Instr.Prim .Over 0, Instr.Prim .Drop 0],
        [Instr.Prim .Undrop 0]) ∧
    under_instr_fragment [Instr.push 1, Instr.Prim .Pick 0] =
      some ([Instr.push 1, Instr.Prim .Over 0, Instr.Prim .Over 0, Instr.Prim .Pick 0],
        [Instr.Prim .Unpick 0]) ∧
    under_instrs [Instr.push 2, Instr.Prim .Drop 0, Instr.push 1, Instr.Prim .Pick 0] =
      none :=
  ⟨by decide, by decide, by decide⟩

/-- C2 (refutation evidence): for the sequence take-n idiom (V1) followed by
select-k idiom (V2), under does not succeed at all - the driver's single
full-window probe fails and the request is rejected - even though each idiom
is individually an under fragment (with afters Untake and Unselect
respectively), so the claimed after ordering is never produced. -/
theorem under_two_idiom_sequence_fails :
    under_instr_fragment [Instr.push 2, Instr.Prim .Take 0] =
      some ([Instr.push 2, Instr.Prim .Over 0, Instr.Prim .Over 0, Instr.Prim .Take 0],
        [Instr.Prim .Untake 0]) ∧
    under_instr_fragment [Instr.push 1, Instr.Prim .Select 0] =
      some ([Instr.push 1, Instr.Prim .Over 0, Instr.Prim .Over 0, Instr.Prim .Select 0],
        [Instr.Prim .Unselect 0]) ∧
    under_instrs ([Instr.push 2, Instr.Prim .Take 0] ++
        [Instr.push 1, Instr.Prim .Select 0]) = none :=
  ⟨by decide, by decide, by decide⟩

/-- C3: the particular identity invert([push 2, Pow]) =
[push 1, push 2, Div, Pow] does hold, but for a multi-instruction value
expression (here a bracketed array literal) the pow rule emits only the first
instruction of the extracted value (the source's val[0].clone()) between the
pushed 1 and Div, dropping the rest of the expression and leaving an
unbalanced BeginArray - not the full value expression the claim states. -/
theorem pow_rule_emits_only_first_value_instr :
    invert_instrs [Instr.push 2, Instr.Prim .Pow 0] =
      some [Instr.push 1, Instr.push 2, Instr.Prim .Div 0, Instr.Prim .Pow 0] ∧
    invert_instr_fragment
        [Instr.BeginArray, Instr.push 2, Instr.EndArray 0, Instr.Prim .Pow 0] =
      some [Instr.push 1, Instr.BeginArray, Instr.Prim .Div 0, Instr.Prim .Pow 0] :=
  ⟨by decide, by decide⟩

/-- C4 (counterexample): the empty cursor is not Val's sole failure mode, in
both directions: Val fails on the non-empty slice [Add] (a binary primitive is
neither a qualifying prefix nor a push, zero-arity primitive or array
opening), and on the empty cursor Val does not fail at all - it succeeds
consuming nothing. -/
theorem val_extract_empty_sole_failure_refuted :
    Val.invert_extract [Instr.Prim .Add 0] = none ∧
    Val.invert_extract [] = some ([], []) :=
  ⟨by decide, by decide⟩

/-- C7 (counterexample): a failed inversion is not memoized. Inverting the
uninvertible sequence [Add] starting from the empty cache returns None and
leaves the cache empty: no entry maps the sequence to None, contrary to the
claim that the failure is recorded permanently. -/
theorem invert_failure_not_cached :
    invert_instrs_cached [] [Instr.Prim .Add 0] = (none, []) ∧
    cacheLookup (invert_instrs_cached [] [Instr.Prim .Add 0]).2 [Instr.Prim .Add 0] =
      none :=
  ⟨by decide, by decide⟩

/-- findSeg scans candidate starts downward, so a found start is at most the
scan's starting point. -/
theorem findSeg_le {instrs : List Instr} {e : Nat} :
    ∀ {s0 s : Nat} {f : List Instr}, findSeg instrs e s0 = some (s, f) → s ≤ s0 := by
  intro s0
  induction s0 with
  | zero =>
    intro s f h
    rw [findSeg] at h
    cases hf : invert_instr_fragment (windowSlice instrs 0 e) with
    | none => rw [hf] at h; simp at h
    | some g =>
      rw [hf] at h
      simp only [Option.map_some'] at h
      obtain ⟨h1, h2⟩ := Prod.mk.injEq .. ▸ Option.some.inj h
      omega
  | succ n ih =>
    intro s f h
    rw [findSeg] at h
    cases hf : invert_instr_fragment (windowSlice instrs (n + 1) e) with
    | some g =>
      rw [hf] at h
      obtain ⟨h1, h2⟩ := Prod.mk.injEq .. ▸ Option.some.inj h
      omega
    | none =>
      rw [hf] at h
      exact Nat.le_succ_of_le (ih h)

/-- Unfolding of the greedy spec at boundary zero. -/
theorem invertGreedy_zero (instrs : List Instr) : invertGreedy instrs 0 = some [] := by
  rw [invertGreedy]

/-- Unfolding of the greedy spec at a successor boundary. -/
theorem invertGreedy_succ (instrs : List Instr) (e : Nat) :
    invertGreedy instrs (e + 1) =
      match findSeg instrs (e + 1) e with
      | none => none
      | some (s, f) => (invertGreedy instrs (min s e)).map (· ++ f) := by
  rw [invertGreedy]

/-- The source's inversion loop agrees with the transcribed greedy
segmentation: from state (start = s, end = e, accumulator acc) it computes the
shortest span ending at e recognized by a rule while scanning starts downward
from s, then recursively covers the remaining prefix, appending the pending
fragment inverse and accumulator. -/
theorem invertLoop_spec (instrs : List Instr) :
    ∀ (s e : Nat) (acc : List Instr),
      invertLoop instrs s e acc =
        match findSeg instrs e s with
        | none => none
        | some (s2, f) => (invertGreedy instrs s2).map fun r => r ++ (f ++ acc) := by
  intro s
  induction s with
  | zero =>
    intro e acc
    rw [invertLoop, findSeg]
    cases hf : invert_instr_fragment (windowSlice instrs 0 e) with
    | none => simp only [hf, Option.map_none']
    | some f => simp [hf, invertGreedy_zero]
  | succ n ih =>
    intro e acc
    rw [invertLoop, findSeg]
    cases hf : invert_instr_fragment (windowSlice instrs (n + 1) e) with
    | none =>
      simp only [hf]
      exact ih e acc
    | some f =>
      simp only [hf]
      rw [ih (n + 1) (f ++ acc), invertGreedy_succ]
      cases hg : findSeg instrs (n + 1) n with
      | none => simp
      | some p =>
        obtain ⟨s2, f2⟩ := p
        have hmin : min s2 n = s2 := Nat.min_eq_left (findSeg_le hg)
        cases hr : invertGreedy instrs s2 with
        | none => simp [hmin, hr]
        | some r => simp [hmin, hr, List.append_assoc]

/-- C5: invert performs greedy right-to-left segmentation. The source driver
(empty sequence inverting to empty, window growing leftward one instruction
per failure, committing to the shortest span ending at the current right
boundary, resetting to single-instruction width immediately to the left on
success, and failing the whole request when the window reaches the start
without a match) computes exactly the greedy right-to-left segmentation
function transcribed from the spec. -/
theorem invert_instrs_is_greedy_rtl (instrs : List Instr) :
    invert_instrs instrs = invertGreedy instrs instrs.length := by
  cases instrs with
  | nil => simp [invert_instrs, invertGreedy_zero]
  | cons x xs =>
    have h1 : invert_instrs (x :: xs) = invertLoop (x :: xs) xs.length (xs.length + 1) [] :=
      rfl
    have h2 : (x :: xs).length = xs.length + 1 := rfl
    rw [h1, h2, invertLoop_spec, invertGreedy_succ]
    cases hg : findSeg (x :: xs) (xs.length + 1) xs.length with
    | none => rfl
    | some p =>
      obtain ⟨s2, f⟩ := p
      have hmin : min s2 xs.length = s2 := Nat.min_eq_left (findSeg_le hg)
      cases hr : invertGreedy (x :: xs) s2 with
      | none => simp [hmin, hr]
      | some r => simp [hmin, hr]

/-- The under driver's loop, entered (as it always is) with start = 0,
terminates on its first probe: success of the full window records (befores,
afters) and breaks; failure returns None. Any positive fuel gives the same
result, so the fuel in the translation is inert. -/
theorem underLoop_entry (instrs : List Instr) (fuel e : Nat) (b a : List Instr) :
    underLoop instrs (fuel + 1) 0 e b a =
      match under_instr_fragment (windowSlice instrs 0 e) with
      | some p => some (b ++ p.1, p.2 ++ a)
      | none => none := by
  rw [underLoop]
  cases hf : under_instr_fragment (windowSlice instrs 0 e) with
  | some p =>
    obtain ⟨bb, aa⟩ := p
    simp [hf]
  | none => simp [hf]

/-- If some position i of the sequence is covered by no window that any
invert-fragment rule recognizes, the inversion loop fails from every state
whose window still contains i. -/
theorem invertLoop_none_of_uncovered (instrs : List Instr) (i : Nat)
    (H : ∀ s e, s ≤ i → i < e → e ≤ instrs.length →
      invert_instr_fragment (windowSlice instrs s e) = none) :
    ∀ s e acc, s < e → e ≤ instrs.length → i < e → invertLoop instrs s e acc = none := by
  intro s
  induction s with
  | zero =>
    intro e acc hse hel hie
    rw [invertLoop, H 0 e (Nat.zero_le i) hie hel]
  | succ n ih =>
    intro e acc hse hel hie
    rw [invertLoop]
    cases hf : invert_instr_fragment (windowSlice instrs (n + 1) e) with
    | some f =>
      simp only [hf]
      have hin : i < n + 1 := by
        by_contra hc
        push_neg at hc
        rw [H (n + 1) e hc hie hel] at hf
        exact Option.noConfusion hf
      exact ih (n + 1) (f ++ acc) (Nat.lt_succ_self n) (by omega) hin
    | none =>
      simp only [hf]
      exact ih e acc (by omega) hel hie

/-- C6: no partial results. If the sequence contains an instruction (at
position i) that no fragment rule recognizes under any window covering it,
then the whole-sequence invert fails, and likewise under: neither driver can
silently drop the instruction, since every successful run must cover every
position with some accepted window. -/
theorem uncovered_instruction_fails (instrs : List Instr) (i : Nat)
    (hi : i < instrs.length)
    (Hinv : ∀ s e, s ≤ i → i < e → e ≤ instrs.length →
      invert_instr_fragment (windowSlice instrs s e) = none)
    (Hund : ∀ s e, s ≤ i → i < e → e ≤ instrs.length →
      under_instr_fragment (windowSlice instrs s e) = none) :
    invert_instrs instrs = none ∧ under_instrs instrs = none := by
  cases instrs with
  | nil => simp at hi
  | cons x xs =>
    constructor
    · have h1 : invert_instrs (x :: xs) = invertLoop (x :: xs) xs.length (xs.length + 1) [] :=
        rfl
      rw [h1]
      exact invertLoop_none_of_uncovered (x :: xs) i Hinv xs.length (xs.length + 1) []
        (Nat.lt_succ_self _) (by simp) (by simpa using hi)
    · have h2 : under_instrs (x :: xs) =
          underLoop (x :: xs) ((x :: xs).length + 1) 0 ((x :: xs).length) [] [] := rfl
      rw [h2, underLoop_entry, Hund 0 ((x :: xs).length) (Nat.zero_le i) hi (le_refl _)]

/-- Witness for C6: the opaque instruction Other 0 matches no rule under its
only window, and both drivers fail on the one-instruction sequence holding it. -/
theorem uncovered_instruction_fails_witness :
    invert_instrs [Instr.Other 0] = none ∧ under_instrs [Instr.Other 0] = none :=
  uncovered_instruction_fails [Instr.Other 0] 0 (by decide)
    (fun s e hs he hle => by
      have hl : e ≤ 1 := by simpa using hle
      have hs0 : s = 0 := by omega
      have he1 : e = 1 := by omega
      subst hs0
      subst he1
      decide)
    (fun s e hs he hle => by
      have hl : e ≤ 1 := by simpa using hle
      have hs0 : s = 0 := by omega
      have he1 : e = 1 := by omega
      subst hs0
      subst he1
      decide)

/-- The longest-prefix search never succeeds on a slice opening with
BeginArray: every candidate prefix contains the bracket and the signature
inference fails on it. -/
theorem valChunkSearch_begin (l : List Instr) :
    ∀ n, valChunkSearch (Instr.BeginArray :: l) n = none := by
  intro n
  induction n with
  | zero => rfl
  | succ m ih =>
    rw [valChunkSearch]
    have hsig : instrs_signature ((Instr.BeginArray :: l).take (m + 1)) = none := by
      rw [List.take_succ_cons]
      simp [instrs_signature, sigGo]
    rw [hsig]
    exact ih

/-- Val's close scan finds no match exactly when, by the depth-tracking
reading of the claim, the slice never returns the nesting depth to zero. -/
theorem scanClose_none_iff (l : List Instr) :
    ∀ d : Nat, (scanClose l (d + 1) = none ↔ closesArray l (d + 1) = false) := by
  induction l with
  | nil =>
    intro d
    have hs : scanClose [] (d + 1) = none := rfl
    have hc : closesArray [] (d + 1) = false := rfl
    rw [hs, hc]
    simp
  | cons x rest ih =>
    intro d
    cases x with
    | EndArray sp =>
      cases d with
      | zero =>
        have hs : scanClose (Instr.EndArray sp :: rest) (0 + 1) = some 0 := rfl
        rw [hs]
        simp [closesArray]
      | succ d2 =>
        have hs : scanClose (Instr.EndArray sp :: rest) (d2 + 1 + 1) =
            (scanClose rest (d2 + 1)).map (· + 1) := rfl
        have hc : closesArray (Instr.EndArray sp :: rest) (d2 + 1 + 1) =
            closesArray rest (d2 + 1) := rfl
        rw [hs, hc, Option.map_eq_none']
        exact ih d2
    | BeginArray =>
      have hs : scanClose (Instr.BeginArray :: rest) (d + 1) =
          (scanClose rest (d + 1 + 1)).map (· + 1) := rfl
      have hc : closesArray (Instr.BeginArray :: rest) (d + 1) =
          closesArray rest (d + 1 + 1) := rfl
      rw [hs, hc, Option.map_eq_none']
      exact ih (d + 1)
    | Push v =>
      have hs : scanClose (Instr.Push v :: rest) (d + 1) =
          (scanClose rest (d + 1)).map (· + 1) := rfl
      have hc : closesArray (Instr.Push v :: rest) (d + 1) =
          closesArray rest (d + 1) := rfl
      rw [hs, hc, Option.map_eq_none']
      exact ih d
    | Prim p sp =>
      have hs : scanClose (Instr.Prim p sp :: rest) (d + 1) =
          (scanClose rest (d + 1)).map (· + 1) := rfl
      have hc : closesArray (Instr.Prim p sp :: rest) (d + 1) =
          closesArray rest (d + 1) := rfl
      rw [hs, hc, Option.map_eq_none']
      exact ih d
    | Other t =>
      have hs : scanClose (Instr.Other t :: rest) (d + 1) =
          (scanClose rest (d + 1)).map (· + 1) := rfl
      have hc : closesArray (Instr.Other t :: rest) (d + 1) =
          closesArray rest (d + 1) := rfl
      rw [hs, hc, Option.map_eq_none']
      exact ih d

/-- C8: an unterminated array literal makes Val fail with absence. For any
slice beginning with BeginArray whose matching EndArray never occurs (the
nesting depth never returns to zero before the slice ends), Val extraction
returns none; the scan is a total function of the slice, so it terminates and
cannot panic. -/
theorem unterminated_array_val_absent (rest : List Instr)
    (h : closesArray rest 1 = false) :
    Val.invert_extract (Instr.BeginArray :: rest) = none := by
  have h1 : Val.invert_extract (Instr.BeginArray :: rest) =
      match valChunkSearch (Instr.BeginArray :: rest) rest.length with
      | some r => some r
      | none => valFallback Instr.BeginArray rest := rfl
  have hscan : scanClose rest 1 = none := (scanClose_none_iff rest 0).mpr h
  have h2 : valFallback Instr.BeginArray rest =
      match scanClose rest 1 with
      | some j => some (Instr.BeginArray :: rest.take (j + 1), rest.drop (j + 1))
      | none => none := rfl
  rw [h1, valChunkSearch_begin, h2, hscan]

/-- Witness for C8: a BeginArray followed by a push and no close. -/
theorem unterminated_array_val_absent_witness :
    Val.invert_extract [Instr.BeginArray, Instr.push 1] = none :=
  unterminated_array_val_absent [Instr.push 1] (by decide)

/-- When the longest-prefix search fails, no candidate proper prefix has
signature (0 args, 1 output). -/
theorem valChunkSearch_none_sig {input : List Instr} :
    ∀ {n : Nat}, valChunkSearch input n = none →
      ∀ k, 0 < k → k ≤ n → ∀ s : Sig, instrs_signature (input.take k) = some s →
        ¬(s.args = 0 ∧ s.outputs = 1) := by
  intro n
  induction n with
  | zero =>
    intro h k hk hkn
    exact absurd (Nat.lt_of_lt_of_le hk hkn) (lt_irrefl 0)
  | succ m ih =>
    intro h k hk hkm s hs hcond
    rw [valChunkSearch] at h
    cases hsig : instrs_signature (input.take (m + 1)) with
    | some s0 =>
      simp only [hsig] at h
      by_cases hc : s0.args = 0 ∧ s0.outputs = 1
      · rw [if_pos hc] at h
        exact Option.noConfusion h
      · rw [if_neg hc] at h
        rcases Nat.lt_or_ge k (m + 1) with hlt | hge
        · exact ih h k hk (by omega) s hs hcond
        · have hkeq : k = m + 1 := by omega
          subst hkeq
          rw [hsig] at hs
          have hss : s0 = s := Option.some.inj hs
          subst hss
          exact hc hcond
    | none =>
      simp only [hsig] at h
      rcases Nat.lt_or_ge k (m + 1) with hlt | hge
      · exact ih h k hk (by omega) s hs hcond
      · have hkeq : k = m + 1 := by omega
        subst hkeq
        rw [hs] at hsig
        exact Option.noConfusion hsig

/-- Converse of the longest-prefix-search characterization: if no candidate
proper prefix has signature (0 args, 1 output), the search fails. -/
theorem valChunkSearch_eq_none {input : List Instr} :
    ∀ {n : Nat}, (∀ k, 0 < k → k ≤ n → ∀ s : Sig,
      instrs_signature (input.take k) = some s → ¬(s.args = 0 ∧ s.outputs = 1)) →
    valChunkSearch input n = none := by
  intro n
  induction n with
  | zero =>
    intro h
    rfl
  | succ m ih =>
    intro h
    rw [valChunkSearch]
    cases hsig : instrs_signature (input.take (m + 1)) with
    | some s0 =>
      have hns := h (m + 1) (by omega) (le_refl _) s0 hsig
      show (if s0.args = 0 ∧ s0.outputs = 1 then
          some (input.take (m + 1), input.drop (m + 1))
        else valChunkSearch input m) = none
      rw [if_neg hns]
      exact ih fun k hk hkm s hs => h k hk (by omega) s hs
    | none =>
      show valChunkSearch input m = none
      exact ih fun k hk hkm s hs => h k hk (by omega) s hs

/-- C4 (amended): Val does not fail on an empty cursor (it succeeds consuming
nothing); it fails exactly when the cursor is non-empty and every extraction
path is ruled out: no proper prefix has signature (0, 1), the head is not a
Push, a head primitive does not have zero declared arity and zero outputs,
and a head BeginArray has no matching EndArray in the slice. -/
theorem val_extract_failure_characterized (l : List Instr) :
    Val.invert_extract l = none ↔
      (l ≠ [] ∧
       (∀ v rest, l ≠ Instr.Push v :: rest) ∧
       (∀ p sp rest, l = Instr.Prim p sp :: rest → ¬(p.args = some 0 ∧ p.outputs = some 0)) ∧
       (∀ rest, l = Instr.BeginArray :: rest → closesArray rest 1 = false) ∧
       (∀ k, 0 < k → k < l.length → ∀ s : Sig,
         instrs_signature (l.take k) = some s → ¬(s.args = 0 ∧ s.outputs = 1))) := by
  constructor
  · intro h
    cases l with
    | nil =>
      rw [Val.invert_extract] at h
      exact Option.noConfusion h
    | cons x xs =>
      have h1 : Val.invert_extract (x :: xs) =
          match valChunkSearch (x :: xs) xs.length with
          | some r => some r
          | none => valFallback x xs := rfl
      rw [h1] at h
      cases hc : valChunkSearch (x :: xs) xs.length with
      | some r =>
        rw [hc] at h
        exact Option.noConfusion h
      | none =>
        rw [hc] at h
        refine ⟨by simp, ?_, ?_, ?_, ?_⟩
        · intro v rest heq
          injection heq with hx hxs
          subst hx
          simp [valFallback] at h
        · intro p sp rest heq hcond
          injection heq with hx hxs
          subst hx
          simp only [valFallback] at h
          rw [if_pos hcond] at h
          exact Option.noConfusion h
        · intro rest heq
          injection heq with hx hxs
          subst hx
          rw [hxs] at h
          simp only [valFallback] at h
          cases hs : scanClose rest 1 with
          | some j =>
            rw [hs] at h
            exact Option.noConfusion h
          | none => exact (scanClose_none_iff rest 0).mp hs
        · intro k hk hkl s hs hcond
          have hlen : (x :: xs).length = xs.length + 1 := rfl
          exact valChunkSearch_none_sig hc k hk (by omega) s hs hcond
  · rintro ⟨hne, h2, h3, h4, h5⟩
    cases l with
    | nil => exact absurd rfl hne
    | cons x xs =>
      have h1 : Val.invert_extract (x :: xs) =
          match valChunkSearch (x :: xs) xs.length with
          | some r => some r
          | none => valFallback x xs := rfl
      have hchunk : valChunkSearch (x :: xs) xs.length = none := by
        apply valChunkSearch_eq_none
        intro k hk hkn s hs
        have hlen : (x :: xs).length = xs.length + 1 := rfl
        exact h5 k hk (by omega) s hs
      rw [h1, hchunk]
      show valFallback x xs = none
      cases x with
      | Push v => exact absurd rfl (h2 v xs)
      | Prim p sp =>
        have hcond := h3 p sp xs rfl
        simp only [valFallback]
        rw [if_neg hcond]
      | BeginArray =>
        have hscan : scanClose xs 1 = none := (scanClose_none_iff xs 0).mpr (h4 xs rfl)
        have hfb : valFallback Instr.BeginArray xs =
            match scanClose xs 1 with
            | some j => some (Instr.BeginArray :: xs.take (j + 1), xs.drop (j + 1))
            | none => none := rfl
        rw [hfb, hscan]
      | EndArray sp => rfl
      | Other t => rfl

/-- Witness for C4's amended statement at a concrete input: the non-empty
slice [Add] satisfies every failure condition, so by the characterization Val
fails on it. -/
theorem val_extract_failure_witness :
    Val.invert_extract [Instr.Prim .Add 0] = none ∧
      ([Instr.Prim .Add 0] : List Instr) ≠ [] :=
  ⟨(val_extract_failure_characterized [Instr.Prim .Add 0]).mpr
      ⟨by decide,
       by simp,
       by
         rintro p sp rest heq
         injection heq with h1 h2
         injection h1 with hp hsp
         subst hp
         decide,
       by simp,
       by
         intro k hk hkl s hs hcond
         have hlen : ([Instr.Prim .Add 0] : List Instr).length = 1 := rfl
         omega⟩,
   by decide⟩

/-- C7 (amended): the memo tables record successes only. A failing request
returns None and leaves the cache exactly as it was (no None entry is ever
inserted, so failures are recomputed on later calls); a successful request on
a non-empty sequence leaves the cache mapping that exact sequence to
Some(result), so a later call on a structurally equal sequence hits it. -/
theorem invertCacheAux (ic : InvCache) (x : Instr) (xs : List Instr) :
    ((invert_instrs_cached ic (x :: xs)).1 = none →
      (invert_instrs_cached ic (x :: xs)).2 = ic) ∧
    (∀ v, (invert_instrs_cached ic (x :: xs)).1 = some v →
      cacheLookup (invert_instrs_cached ic (x :: xs)).2 (x :: xs) = some (some v)) := by
  have hI : invert_instrs_cached ic (x :: xs) =
      (match cacheLookup ic (x :: xs) with
       | some r => (r, ic)
       | none =>
         match invertLoop (x :: xs) xs.length (xs.length + 1) [] with
         | some v => (some v, (x :: xs, some v) :: ic)
         | none => (none, ic)) := by rfl
  rw [hI]
  cases hl : cacheLookup ic (x :: xs) with
  | some cr =>
    constructor
    · intro h
      rfl
    · intro v h
      have h2 : cr = some v := h
      show cacheLookup ic (x :: xs) = some (some v)
      rw [hl, h2]
  | none =>
    cases hloop : invertLoop (x :: xs) xs.length (xs.length + 1) [] with
    | some v0 =>
      constructor
      · intro h
        exact absurd (show (some v0 : Option (List Instr)) = none from h) (by simp)
      · intro v h
        have h2 : some v0 = some v := h
        obtain rfl := Option.some.inj h2
        show cacheLookup ((x :: xs, some v0) :: ic) (x :: xs) = some (some v0)
        simp [cacheLookup]
    | none =>
      constructor
      · intro h
        rfl
      · intro v h
        exact absurd (show (none : Option (List Instr)) = some v from h) (by simp)

theorem underCacheAux (uc : UndCache) (x : Instr) (xs : List Instr) :
    ((under_instrs_cached uc (x :: xs)).1 = none →
      (under_instrs_cached uc (x :: xs)).2 = uc) ∧
    (∀ v, (under_instrs_cached uc (x :: xs)).1 = some v →
      cacheLookup (under_instrs_cached uc (x :: xs)).2 (x :: xs) = some (some v)) := by
  have hU : under_instrs_cached uc (x :: xs) =
      (match cacheLookup uc (x :: xs) with
       | some r => (r, uc)
       | none =>
         match underLoop (x :: xs) (xs.length + 2) 0 (xs.length + 1) [] [] with
         | some v => (some v, (x :: xs, some v) :: uc)
         | none => (none, uc)) := by rfl
  rw [hU]
  cases hl : cacheLookup uc (x :: xs) with
  | some cr =>
    constructor
    · intro h
      rfl
    · intro v h
      have h2 : cr = some v := h
      show cacheLookup uc (x :: xs) = some (some v)
      rw [hl, h2]
  | none =>
    cases hloop : underLoop (x :: xs) (xs.length + 2) 0 (xs.length + 1) [] [] with
    | some v0 =>
      constructor
      · intro h
        exact absurd (show (some v0 : Option (List Instr × List Instr)) = none from h)
          (by simp)
      · intro v h
        have h2 : some v0 = some v := h
        obtain rfl := Option.some.inj h2
        show cacheLookup ((x :: xs, some v0) :: uc) (x :: xs) = some (some v0)
        simp [cacheLookup]
    | none =>
      constructor
      · intro h
        rfl
      · intro v h
        exact absurd (show (none : Option (List Instr × List Instr)) = some v from h)
          (by simp)

/-- C7 (amended): the memo tables record successes only. A failing request
returns None and leaves the cache exactly as it was (no None entry is ever
inserted, so failures are recomputed on later calls); a successful request on
a non-empty sequence leaves the cache mapping that exact sequence to
Some(result), so a later call on a structurally equal sequence hits it. -/
theorem cache_records_successes_only (ic : InvCache) (uc : UndCache)
    (instrs : List Instr) :
    ((invert_instrs_cached ic instrs).1 = none → (invert_instrs_cached ic instrs).2 = ic) ∧
    (∀ r, instrs ≠ [] → (invert_instrs_cached ic instrs).1 = some r →
      cacheLookup (invert_instrs_cached ic instrs).2 instrs = some (some r)) ∧
    ((under_instrs_cached uc instrs).1 = none → (under_instrs_cached uc instrs).2 = uc) ∧
    (∀ u, instrs ≠ [] → (under_instrs_cached uc instrs).1 = some u →
      cacheLookup (under_instrs_cached uc instrs).2 instrs = some (some u)) := by
  cases instrs with
  | nil =>
    refine ⟨?_, ?_, ?_, ?_⟩
    · intro h
      simp [invert_instrs_cached] at h
    · intro r hne
      exact absurd rfl hne
    · intro h
      simp [under_instrs_cached] at h
    · intro u hne
      exact absurd rfl hne
  | cons x xs =>
    obtain ⟨ha1, ha2⟩ := invertCacheAux ic x xs
    obtain ⟨hb1, hb2⟩ := underCacheAux uc x xs
    exact ⟨ha1, fun r _ => ha2 r, hb1, fun u _ => hb2 u⟩

/-- Witness for C7's amended statement: a successful inversion of [Mul] from
the empty cache leaves a Some entry for the exact sequence. -/
theorem cache_records_successes_only_witness :
    cacheLookup (invert_instrs_cached [] [Instr.Prim .Mul 0]).2 [Instr.Prim .Mul 0] =
      some (some [Instr.Prim .Div 0]) :=
  (cache_records_successes_only [] [] [Instr.Prim .Mul 0]).2.1
    [Instr.Prim .Div 0] (by decide) (by decide)

/-- C9: the function-level under wrapper prefers the full inverse: whenever
Function::inverse succeeds with g, under returns (the function itself, g);
when the inverse is unavailable it returns exactly the under-decomposition of
the body wrapped as Normal-kind functions (so it fails only when that
decomposition fails). -/
theorem function_under_prefers_full_inverse (f : Func) :
    (∀ g, f.inverse = some g → f.under = some (f, g)) ∧
    (f.inverse = none →
      f.under = (under_instrs f.instrs).map fun u =>
        (⟨f.id, u.1, FunctionKind.Normal⟩, ⟨f.id, u.2, FunctionKind.Normal⟩)) := by
  constructor
  · intro g hg
    simp [Func.under, hg]
  · intro hn
    simp [Func.under, hn]

/-- Witness for C9: the Normal-kind function with body [Mul] has the full
inverse [Div], and under returns the pair (self, inverse). -/
theorem function_under_prefers_full_inverse_witness :
    Func.under ⟨0, [Instr.Prim .Mul 0], FunctionKind.Normal⟩ =
      some (⟨0, [Instr.Prim .Mul 0], FunctionKind.Normal⟩,
        ⟨0, [Instr.Prim .Div 0], FunctionKind.Normal⟩) :=
  (function_under_prefers_full_inverse ⟨0, [Instr.Prim .Mul 0], FunctionKind.Normal⟩).1
    ⟨0, [Instr.Prim .Div 0], FunctionKind.Normal⟩ (by decide)

/-- C10: a non-Normal-kind function has no inverse (the kind check guards the
inverse path), yet its under can still succeed: whenever the body admits an
under-decomposition (befores, afters), under returns that pair wrapped as
Normal-kind functions via the fallback path. -/
theorem non_normal_kind_under_fallback (f : Func)
    (hk : f.kind ≠ FunctionKind.Normal) :
    f.inverse = none ∧
    (∀ b a, under_instrs f.instrs = some (b, a) →
      f.under = some (⟨f.id, b, FunctionKind.Normal⟩, ⟨f.id, a, FunctionKind.Normal⟩)) := by
  have hinv : f.inverse = none := by
    simp [Func.inverse, hk]
  refine ⟨hinv, ?_⟩
  intro b a hu
  simp [Func.under, hinv, hu]

/-- Witness for C10: the Builtin-kind function with body [Mul] has no inverse,
but its under succeeds through the fallback with Normal-kind parts. -/
theorem non_normal_kind_under_fallback_witness :
    Func.under ⟨0, [Instr.Prim .Mul 0], FunctionKind.Builtin⟩ =
      some (⟨0, [Instr.Prim .Mul 0], FunctionKind.Normal⟩,
        ⟨0, [Instr.Prim .Div 0], FunctionKind.Normal⟩) :=
  (non_normal_kind_under_fallback ⟨0, [Instr.Prim .Mul 0], FunctionKind.Builtin⟩
      (by decide)).2
    [Instr.Prim .Mul 0] [Instr.Prim .Div 0] (by decide)
